import Mathlib

/-!
Shallow embedding of `src/Gmail_Auto_Labeler_Script.py` (Gmail Auto Labeler).

The remote Gmail service is modelled as an explicit state (`Remote`) holding
the label directory, the messages with their label-id sets, a search oracle
mapping query strings to paged result lists, and fault-injection sets saying
which remote calls raise `HttpError`.  The script's functions
(`get_or_create_label`, `label_emails`, `main`) are translated into pure
state-passing functions that also record the trace of remote API calls they
issue, so that claims about which mutations are (not) issued become
statements about the recorded trace.
-/

namespace GmailAutoLabeler

/-- A Gmail label: stable `id`, display `name` (the resolution key). -/
structure Label where
  id : String
  name : String
deriving Repr, DecidableEq

/-- A Gmail message: `id` and its current list of label ids. -/
structure Msg where
  id : String
  labelIds : List String
deriving Repr, DecidableEq

/-- Model of the remote Gmail service state, plus fault injection.

`pages` is the search oracle: it maps a query string to the pages of message
ids the service would return for that query (one inner list per result page,
linked by continuation tokens).  The `fail*` fields list the inputs on which
the corresponding remote call raises `HttpError`. -/
structure Remote where
  labels : List Label
  msgs : List Msg
  pages : List (String × List (List String))
  nextLabelNum : Nat
  failList : Bool
  failCreate : List String
  failSearch : List String
  failGet : List String
  failModify : List String
deriving Repr, DecidableEq

/-- The trace of remote calls the script issues.  `modifyMsg` records the
whole request body: the ids added and the ids removed. -/
inductive ApiCall where
  | authenticate
  | listLabels
  | createLabel (name : String)
  | searchMsgs (query : String)
  | getMsg (id : String)
  | modifyMsg (id : String) (addLabelIds : List String) (removeLabelIds : List String)
deriving Repr, DecidableEq

/-- `HttpError` from the API client, abstracted to its message. -/
abbrev HttpError := String

/-- The pages the search oracle holds for a query (none registered = no pages,
i.e. an empty result). -/
def pagesFor (st : Remote) (q : String) : List (List String) :=
  match st.pages.find? (fun p => p.1 = q) with
  | some p => p.2
  | none => []

/-- All message ids matching a query, across every result page. -/
def allMatching (st : Remote) (q : String) : List String :=
  (pagesFor st q).flatten

/-- First result page for a query (what a single un-continued list call sees). -/
def firstPage (st : Remote) (q : String) : List String :=
  match pagesFor st q with
  | [] => []
  | p :: _ => p

/-- `service.users().labels().list(userId="me")`. -/
def listLabelsApi (st : Remote) : Except HttpError (List Label) :=
  if st.failList then .error ("labels.list failed") else .ok st.labels

/-- `service.users().labels().create(...)`: the server assigns a fresh id and
stores the new label. -/
def createLabelApi (st : Remote) (name : String) : Except HttpError (Label × Remote) :=
  if name ∈ st.failCreate then .error ("labels.create failed")
  else
    let lab : Label := ⟨"Label_" ++ toString st.nextLabelNum, name⟩
    .ok (lab, { st with labels := st.labels ++ [lab], nextLabelNum := st.nextLabelNum + 1 })

/-- `service.users().messages().list(userId="me", q=query)` at a given page
token (a page index): returns that page's message ids and the continuation
token for the next page, if any. -/
def listMessagesApi (st : Remote) (q : String) (pageToken : Nat) :
    Except HttpError (List String × Option Nat) :=
  if q ∈ st.failSearch then .error ("messages.list failed")
  else
    let pgs := pagesFor st q
    .ok (pgs.getD pageToken [], if pageToken + 1 < pgs.length then some (pageToken + 1) else none)

/-- The label ids of message `m` as stored remotely (`none` = no such message). -/
def msgLabels (st : Remote) (m : String) : Option (List String) :=
  (st.msgs.find? (fun mm => mm.id = m)).map (fun mm => mm.labelIds)

/-- `service.users().messages().get(userId="me", id=m, format="metadata")`,
projected to the `labelIds` field the script reads. -/
def getMsgApi (st : Remote) (m : String) : Except HttpError (List String) :=
  if m ∈ st.failGet then .error ("messages.get failed")
  else
    match msgLabels st m with
    | some ls => .ok ls
    | none => .error ("messages.get 404")

/-- Server-side effect of a modify body on one message's label ids:
removals are dropped, additions not already present are appended. -/
def applyModify (ls adds rems : List String) : List String :=
  ls.filter (fun l => l ∉ rems) ++ adds.filter (fun l => l ∉ ls)

/-- One message updated in the store. -/
def applyAdd (msgs : List Msg) (m : String) (adds rems : List String) : List Msg :=
  msgs.map (fun mm => if mm.id = m then ⟨mm.id, applyModify mm.labelIds adds rems⟩ else mm)

/-- `service.users().messages().modify(userId="me", id=m, body=...)`. -/
def modifyMsgApi (st : Remote) (m : String) (adds rems : List String) :
    Except HttpError Remote :=
  if m ∈ st.failModify then .error ("messages.modify failed")
  else if (st.msgs.find? (fun mm => mm.id = m)).isSome then
    .ok { st with msgs := applyAdd st.msgs m adds rems }
  else .error ("messages.modify 404")

/-- `label_map = {label["name"]: label["id"] for label in labels}` followed by
`label_map[label_name]`: a Python dict comprehension keeps the LAST entry for
a duplicated name, so resolution finds the last label with the given name. -/
def resolveName (labels : List Label) (name : String) : Option String :=
  (labels.reverse.find? (fun lab => lab.name = name)).map (fun lab => lab.id)

/-- `get_or_create_label(service, label_name)`: list all labels, return the
mapped id when the name is present, otherwise create the label (visibility
flags `labelShow`/`show`) and return the new id.  An `HttpError` from either
call is logged and re-raised.  Returns the calls made alongside the result. -/
def get_or_create_label (st : Remote) (label_name : String) :
    List ApiCall × Except HttpError (String × Remote) :=
  match listLabelsApi st with
  | .error e => ([.listLabels], .error e)
  | .ok labels =>
    match resolveName labels label_name with
    | some lid => ([.listLabels], .ok (lid, st))
    | none =>
      match createLabelApi st label_name with
      | .error e => ([.listLabels, .createLabel label_name], .error e)
      | .ok (lab, st') => ([.listLabels, .createLabel label_name], .ok (lab.id, st'))

/-- Outcome of processing one rule (one `sender → label` entry): the remote
state afterwards, the calls issued, the message ids the rule labeled
(`appliedIds`, logged "Labeled email ID ..."), the ids it found already
labeled (`skippedIds`, logged "... already has the label ..."), and whether
an `HttpError` was raised (it propagates to the `except` around the whole
rule loop in `label_emails`). -/
structure RuleOut where
  st : Remote
  calls : List ApiCall
  appliedIds : List String
  skippedIds : List String
  err : Bool
deriving Repr, DecidableEq

/-- The per-message loop of `label_emails` (lines 203-222): for each searched
message id, fetch its metadata, and issue
`modify(body={"addLabelIds": [label_id]})` exactly when `label_id` is absent
from the fetched `labelIds`.  An `HttpError` from get or modify stops the
loop (it propagates to the handler outside the rule loop). -/
def processMsgs (st : Remote) (label_id : String) : List String → RuleOut
  | [] => ⟨st, [], [], [], false⟩
  | m :: rest =>
    match getMsgApi st m with
    | .error _ => ⟨st, [.getMsg m], [], [], true⟩
    | .ok existing_labels =>
      if label_id ∈ existing_labels then
        let r := processMsgs st label_id rest
        ⟨r.st, .getMsg m :: r.calls, r.appliedIds, m :: r.skippedIds, r.err⟩
      else
        match modifyMsgApi st m [label_id] [] with
        | .error _ => ⟨st, [.getMsg m, .modifyMsg m [label_id] []], [], [], true⟩
        | .ok st' =>
          let r := processMsgs st' label_id rest
          ⟨r.st, .getMsg m :: .modifyMsg m [label_id] [] :: r.calls,
            m :: r.appliedIds, r.skippedIds, r.err⟩

/-- The query string built at line 192: `from:{sender} after:{date}`. -/
def queryFor (sender_email date_str : String) : String :=
  "from:" ++ sender_email ++ " after:" ++ date_str

/-- The body of the rule loop of `label_emails` (lines 177-222) for one
`(sender_email, label_name)` entry: resolve or create the label, skip the
rule when the id is falsy, search (a single un-continued list call whose
continuation token is discarded), skip the rule when no messages match,
otherwise run the per-message loop. -/
def processRule (st : Remote) (sender_email label_name date_str : String) : RuleOut :=
  match get_or_create_label st label_name with
  | (cs, .error _) => ⟨st, cs, [], [], true⟩
  | (cs, .ok (label_id, st1)) =>
    if label_id = "" then ⟨st1, cs, [], [], false⟩
    else
      let q := queryFor sender_email date_str
      match listMessagesApi st1 q 0 with
      | .error _ => ⟨st1, cs ++ [.searchMsgs q], [], [], true⟩
      | .ok (messages, _nextPageToken) =>
        if messages = [] then ⟨st1, cs ++ [.searchMsgs q], [], [], false⟩
        else
          let r := processMsgs st1 label_id messages
          ⟨r.st, cs ++ .searchMsgs q :: r.calls, r.appliedIds, r.skippedIds, r.err⟩

/-- Outcome of a whole `label_emails` run: final remote state, the full call
trace, and whether the `except HttpError` handler at line 224 fired (the
error is logged and swallowed, so the function still returns normally). -/
structure RunOut where
  st : Remote
  calls : List ApiCall
  aborted : Bool
deriving Repr, DecidableEq

/-- `datetime.now() - timedelta(days=days)` rendered with
`strftime("%Y/%m/%d")`, abstracted: `now` is the run's date as a day count
and the rendering is an injective day-to-string function. -/
def date_n_days_ago (now : Int) (days : Int) : String :=
  "day " ++ toString (now - days)

/-- The rule loop of `label_emails`, inside the single `try` of lines
176-225: an `HttpError` raised while processing any rule is caught by the
one handler outside the loop, so it abandons every remaining rule (and the
remaining messages of the current rule). -/
def labelEmailsGo (st : Remote) (date_str : String) :
    List (String × String) → RunOut
  | [] => ⟨st, [], false⟩
  | (sender_email, label_name) :: rest =>
    let r := processRule st sender_email label_name date_str
    if r.err then ⟨r.st, r.calls, true⟩
    else
      let w := labelEmailsGo r.st date_str rest
      ⟨w.st, r.calls ++ w.calls, w.aborted⟩

/-- `label_emails(service, sender_label_map, days_to_look_back)`. -/
def label_emails (st : Remote) (sender_label_map : List (String × String))
    (days_to_look_back : Int) (now : Int) : RunOut :=
  labelEmailsGo st (date_n_days_ago now days_to_look_back) sender_label_map

/-- Surrounding whitespace stripped from a character list (Python `int`
ignores it). -/
def pyStrip (l : List Char) : List Char :=
  ((l.dropWhile fun c => c.isWhitespace).reverse.dropWhile fun c => c.isWhitespace).reverse

/-- Python's `int(s)` on a string: optional surrounding whitespace, optional
sign, then at least one decimal digit; anything else raises `ValueError`
(modelled as `none`). -/
def pyInt (s : String) : Option Int :=
  match pyStrip s.data with
  | [] => none
  | c :: rest =>
    let neg : Bool := c = '-'
    let digits := if c = '-' ∨ c = '+' then rest else c :: rest
    if digits ≠ [] ∧ digits.all Char.isDigit then
      let n : Nat := digits.foldl (fun acc ch => acc * 10 + (ch.toNat - 48)) 0
      some (if neg then -(n : Int) else (n : Int))
    else none

/-- The configuration, as read by `main`: `config.get("SENDER_LABELS", {})`
and `config.get("DAYS_TO_LOOK_BACK", {}).get("Days", "30")`.  `none` models
an absent key (outer: no `DAYS_TO_LOOK_BACK` object; inner: no `Days`
field). -/
structure Config where
  senderLabels : Option (List (String × String))
  daysToLookBack : Option (Option String)
deriving Repr, DecidableEq

/-- How a run of `main` ended. -/
inductive MainOutcome where
  | warnedNoSenders
  | invalidDays
  | ran (r : RunOut)
deriving Repr, DecidableEq

/-- `main()` after the config file is loaded (lines 239-255): default the
sender map to empty and the days string to "30", warn and return on an empty
sender map, log an error and return when `int(...)` raises `ValueError`, and
otherwise authenticate and call `label_emails`.  The second component is
every remote interaction the run performs (authentication included). -/
def main (cfg : Config) (st : Remote) (now : Int) : MainOutcome × List ApiCall :=
  let sender_labels := cfg.senderLabels.getD []
  let days_to_look_back_str := (cfg.daysToLookBack.getD none).getD ("30")
  if sender_labels = [] then (.warnedNoSenders, [])
  else
    match pyInt days_to_look_back_str with
    | none => (.invalidDays, [])
    | some days_to_look_back =>
      let r := label_emails st sender_labels days_to_look_back now
      (.ran r, .authenticate :: r.calls)

/-- Is this call a message-modify (label mutation)? -/
def ApiCall.isModify : ApiCall → Bool
  | .modifyMsg _ _ _ => true
  | _ => false

/-- Is this call a labels-list? -/
def ApiCall.isListLabels : ApiCall → Bool
  | .listLabels => true
  | _ => false

/-- Is this call a per-message call (get or modify)? -/
def ApiCall.isPerMsg : ApiCall → Bool
  | .getMsg _ => true
  | .modifyMsg _ _ _ => true
  | _ => false

/-- Is this call a message search? -/
def ApiCall.isSearch : ApiCall → Bool
  | .searchMsgs _ => true
  | _ => false

/-- No remote call is set to fail in this state. -/
def noFaults (st : Remote) : Prop :=
  st.failList = false ∧ st.failCreate = [] ∧ st.failSearch = [] ∧
    st.failGet = [] ∧ st.failModify = []

/-- Message `x` exists remotely and carries label id `l`. -/
def HasLbl (st : Remote) (x l : String) : Prop :=
  ∃ ls, msgLabels st x = some ls ∧ l ∈ ls

/-- A rule is settled in a state: its label name resolves, and (unless the
resolved id is the falsy string) every message on the first result page of
its query already carries the resolved id. -/
def ruleSettled (st : Remote) (date_str : String) (r : String × String) : Prop :=
  ∃ lid, resolveName st.labels r.2 = some lid ∧
    (lid = "" ∨ ∀ m ∈ firstPage st (queryFor r.1 date_str), HasLbl st m lid)

/-- Every rule of the list is settled. -/
def allSettled (st : Remote) (date_str : String) (rules : List (String × String)) : Prop :=
  ∀ r ∈ rules, ruleSettled st date_str r

/-- `st'` is reachable from `st` by the script's remote mutations: the
search oracle and fault sets are untouched, labels are only appended,
messages are never deleted, and a label id present on a message stays
present. -/
structure StExt (st st' : Remote) : Prop where
  pages : st'.pages = st.pages
  failList : st'.failList = st.failList
  failCreate : st'.failCreate = st.failCreate
  failSearch : st'.failSearch = st.failSearch
  failGet : st'.failGet = st.failGet
  failModify : st'.failModify = st.failModify
  labels : ∃ ext, st'.labels = st.labels ++ ext
  msome : ∀ x, (msgLabels st x).isSome → (msgLabels st' x).isSome
  mono : ∀ x l, HasLbl st x l → HasLbl st' x l

/-- The message id a per-message call refers to, if any. -/
def ApiCall.msgId : ApiCall → Option String
  | .getMsg m => some m
  | .modifyMsg m _ _ => some m
  | _ => none

/-! ### Concrete fixtures used to exercise the model -/

/-- A remote state with one existing label, one unlabeled and one
already-labeled message from `a@x`. -/
def egRemote : Remote :=
  { labels := [⟨"L1", "Alerts"⟩]
  , msgs := [⟨"m1", ["INBOX"]⟩, ⟨"m2", ["L1"]⟩]
  , pages := [("from:a@x after:day 93", [["m1", "m2"]])]
  , nextLabelNum := 0
  , failList := false, failCreate := [], failSearch := [], failGet := [], failModify := [] }

/-- The single rule labeling mail from `a@x` with `Alerts`. -/
def egRules : List (String × String) := [("a@x", "Alerts")]

/-- Two rules over two existing labels (for counting label-list calls). -/
def eg2Remote : Remote :=
  { labels := [⟨"L1", "Alerts"⟩, ⟨"L2", "News"⟩]
  , msgs := [⟨"m1", ["L1"]⟩]
  , pages := [("from:a@x after:day 93", [["m1"]])]
  , nextLabelNum := 0
  , failList := false, failCreate := [], failSearch := [], failGet := [], failModify := [] }

/-- Two rules sharing no label name. -/
def eg2Rules : List (String × String) := [("a@x", "Alerts"), ("b@x", "News")]

/-- A remote state whose search result for `a@x` spans two pages, both
messages unlabeled. -/
def pgRemote : Remote :=
  { labels := [⟨"L1", "Alerts"⟩]
  , msgs := [⟨"m1", []⟩, ⟨"m2", []⟩]
  , pages := [("from:a@x after:day 93", [["m1"], ["m2"]])]
  , nextLabelNum := 0
  , failList := false, failCreate := [], failSearch := [], failGet := [], failModify := [] }

/-- A remote state where the search for rule 1 (`a@x`) fails while rule 2
(`b@x`) has an unlabeled message waiting. -/
def c3Remote : Remote :=
  { labels := [⟨"L1", "Alerts"⟩, ⟨"L2", "News"⟩]
  , msgs := [⟨"m2", []⟩]
  , pages := [("from:b@x after:day 93", [["m2"]])]
  , nextLabelNum := 0
  , failList := false, failCreate := [], failSearch := ["from:a@x after:day 93"]
  , failGet := [], failModify := [] }

/-- An empty remote state with no faults. -/
def emptyRemote : Remote :=
  { labels := [], msgs := [], pages := [], nextLabelNum := 0
  , failList := false, failCreate := [], failSearch := [], failGet := [], failModify := [] }

/-! ### Basic lemmas about the store operations -/

theorem resolveName_append_single (labels : List Label) (i n name : String) :
    resolveName (labels ++ [⟨i, n⟩]) name =
      if n = name then some i else resolveName labels name := by
  unfold resolveName
  rw [List.reverse_append]
  simp only [List.reverse_cons, List.reverse_nil, List.nil_append, List.singleton_append,
    List.find?_cons]
  by_cases h : n = name
  · simp [h]
  · simp [h]

theorem find?_map_id_preserving (f : Msg → Msg) (hf : ∀ mm, (f mm).id = mm.id)
    (msgs : List Msg) (x : String) :
    (msgs.map f).find? (fun mm => mm.id = x) =
      (msgs.find? (fun mm => mm.id = x)).map f := by
  induction msgs with
  | nil => simp
  | cons a l ih =>
    by_cases h : a.id = x
    · have hfa : (f a).id = x := by rw [hf]; exact h
      simp [List.find?_cons, h, hfa]
    · have hfa : ¬ (f a).id = x := by rw [hf]; exact h
      simp [List.find?_cons, h, hfa, ih]

theorem msgLabels_applyAdd (st : Remote) (m : String) (adds rems : List String) (x : String) :
    msgLabels { st with msgs := applyAdd st.msgs m adds rems } x =
      (msgLabels st x).map
        (fun ls => if x = m then applyModify ls adds rems else ls) := by
  unfold msgLabels applyAdd
  rw [find?_map_id_preserving _ (fun mm => by by_cases h : mm.id = m <;> simp [h])]
  cases hfind : st.msgs.find? (fun mm => mm.id = x) with
  | none => rfl
  | some mm =>
    have hid : mm.id = x := by
      have := List.find?_some hfind
      simpa using this
    by_cases hxm : x = m
    · simp [hid, hxm]
    · simp [hid, hxm]

theorem modifyMsgApi_ok (st st' : Remote) (m : String) (adds rems : List String)
    (h : modifyMsgApi st m adds rems = .ok st') :
    st' = { st with msgs := applyAdd st.msgs m adds rems } ∧
      (msgLabels st m).isSome ∧ m ∉ st.failModify := by
  unfold modifyMsgApi at h
  by_cases h1 : m ∈ st.failModify
  · simp [h1] at h
  · rw [if_neg h1] at h
    by_cases h2 : (st.msgs.find? (fun mm => mm.id = m)).isSome
    · refine ⟨?_, ?_, h1⟩
      · simp [h2] at h
        exact h.symm
      · simpa [msgLabels, Option.isSome_map] using h2
    · simp [h2] at h

theorem applyModify_nil_rems (ls adds : List String) :
    applyModify ls adds [] = ls ++ adds.filter (fun l => l ∉ ls) := by
  unfold applyModify
  simp

theorem mem_applyModify_left {l : String} (ls adds : List String) (h : l ∈ ls) :
    l ∈ applyModify ls adds [] := by
  rw [applyModify_nil_rems]
  exact List.mem_append_left _ h

theorem mem_applyModify_self (ls : List String) (l : String) :
    l ∈ applyModify ls [l] [] := by
  rw [applyModify_nil_rems]
  by_cases h : l ∈ ls
  · exact List.mem_append_left _ h
  · refine List.mem_append_right _ ?_
    simp [h]

theorem StExt.refl (st : Remote) : StExt st st :=
  ⟨rfl, rfl, rfl, rfl, rfl, rfl, ⟨[], by simp⟩, fun _ h => h, fun _ _ h => h⟩

theorem StExt.trans {st st' st'' : Remote} (h1 : StExt st st') (h2 : StExt st' st'') :
    StExt st st'' := by
  obtain ⟨e1, he1⟩ := h1.labels
  obtain ⟨e2, he2⟩ := h2.labels
  exact ⟨h2.pages.trans h1.pages, h2.failList.trans h1.failList,
    h2.failCreate.trans h1.failCreate, h2.failSearch.trans h1.failSearch,
    h2.failGet.trans h1.failGet, h2.failModify.trans h1.failModify,
    ⟨e1 ++ e2, by rw [he2, he1, List.append_assoc]⟩,
    fun x h => h2.msome x (h1.msome x h),
    fun x l h => h2.mono x l (h1.mono x l h)⟩

theorem StExt.modify (st : Remote) (m : String) (adds : List String) :
    StExt st { st with msgs := applyAdd st.msgs m adds [] } := by
  refine ⟨rfl, rfl, rfl, rfl, rfl, rfl, ⟨[], by simp⟩, ?_, ?_⟩
  · intro x hx
    rw [msgLabels_applyAdd]
    simpa using hx
  · intro x l hl
    obtain ⟨ls, hls, hmem⟩ := hl
    refine ⟨if x = m then applyModify ls adds [] else ls, ?_, ?_⟩
    · rw [msgLabels_applyAdd, hls]
      rfl
    · by_cases hx : x = m
      · simpa [hx] using mem_applyModify_left ls adds hmem
      · simpa [hx] using hmem

theorem createLabelApi_ok (st : Remote) (n : String) (lab : Label) (st' : Remote)
    (h : createLabelApi st n = .ok (lab, st')) :
    lab.name = n ∧ n ∉ st.failCreate ∧
      st' = { st with labels := st.labels ++ [lab],
                      nextLabelNum := st.nextLabelNum + 1 } := by
  unfold createLabelApi at h
  by_cases h1 : n ∈ st.failCreate
  · simp [h1] at h
  · rw [if_neg h1] at h
    simp only [Except.ok.injEq, Prod.mk.injEq] at h
    obtain ⟨hlab, hst⟩ := h
    subst hlab
    exact ⟨rfl, h1, by rw [← hst]⟩

theorem get_or_create_label_ok (st : Remote) (n : String) (cs : List ApiCall)
    (lid : String) (st1 : Remote)
    (h : get_or_create_label st n = (cs, .ok (lid, st1))) :
    st.failList = false ∧ resolveName st1.labels n = some lid ∧
      (cs = [.listLabels] ∨ cs = [.listLabels, .createLabel n]) ∧
      (st1 = st ∨
        (resolveName st.labels n = none ∧
          st1 = { st with labels := st.labels ++ [⟨lid, n⟩],
                          nextLabelNum := st.nextLabelNum + 1 })) := by
  unfold get_or_create_label at h
  split at h
  next e heq => simp at h
  next labels heq =>
    have hlst : st.failList = false ∧ labels = st.labels := by
      unfold listLabelsApi at heq
      by_cases hf : st.failList
      · simp [hf] at heq
      · rw [if_neg hf] at heq
        exact ⟨by simpa using hf, by simpa using heq.symm⟩
    obtain ⟨hfl, hlabels⟩ := hlst
    subst hlabels
    refine ⟨hfl, ?_⟩
    split at h
    next lid0 hres =>
      simp only [Prod.mk.injEq, Except.ok.injEq] at h
      obtain ⟨hcs, hlid, hst⟩ := h
      subst hlid hst
      exact ⟨hres, Or.inl hcs.symm, Or.inl rfl⟩
    next hres =>
      split at h
      next e hcr => simp at h
      next lab st' hcr =>
        simp only [Prod.mk.injEq, Except.ok.injEq] at h
        obtain ⟨hcs, hlid, hst⟩ := h
        obtain ⟨hname, _, hst'⟩ := createLabelApi_ok st n lab st' hcr
        subst hst hlid
        have hlab : lab = ⟨lab.id, n⟩ := by
          cases lab
          simp_all
        refine ⟨?_, Or.inr hcs.symm, Or.inr ⟨hres, ?_⟩⟩
        · rw [hst', hlab, resolveName_append_single]
          simp
        · rw [hst', hlab]

theorem processMsgs_state (st : Remote) (label_id : String) (ms : List String) :
    StExt st (processMsgs st label_id ms).st ∧
      (processMsgs st label_id ms).st.labels = st.labels := by
  induction ms generalizing st with
  | nil => exact ⟨StExt.refl st, rfl⟩
  | cons m rest ih =>
    unfold processMsgs
    split
    next e hg => exact ⟨StExt.refl st, rfl⟩
    next existing hg =>
      split
      next hmem => exact ⟨(ih st).1, (ih st).2⟩
      next hmem =>
        split
        next e hm => exact ⟨StExt.refl st, rfl⟩
        next st' hm =>
          obtain ⟨hst', _, _⟩ := modifyMsgApi_ok st st' m [label_id] [] hm
          have hext : StExt st st' := hst' ▸ StExt.modify st m [label_id]
          have hlab : st'.labels = st.labels := by rw [hst']
          exact ⟨StExt.trans hext (ih st').1, ((ih st').2).trans hlab⟩

/-! ### Equation lemmas for the interpreters -/

theorem processMsgs_nil (st : Remote) (lid : String) :
    processMsgs st lid [] = ⟨st, [], [], [], false⟩ := rfl

theorem processMsgs_cons (st : Remote) (lid m : String) (rest : List String) :
    processMsgs st lid (m :: rest) =
      match getMsgApi st m with
      | .error _ => ⟨st, [.getMsg m], [], [], true⟩
      | .ok existing =>
        if lid ∈ existing then
          ⟨(processMsgs st lid rest).st, .getMsg m :: (processMsgs st lid rest).calls,
            (processMsgs st lid rest).appliedIds, m :: (processMsgs st lid rest).skippedIds,
            (processMsgs st lid rest).err⟩
        else
          match modifyMsgApi st m [lid] [] with
          | .error _ => ⟨st, [.getMsg m, .modifyMsg m [lid] []], [], [], true⟩
          | .ok st' =>
            ⟨(processMsgs st' lid rest).st,
              .getMsg m :: .modifyMsg m [lid] [] :: (processMsgs st' lid rest).calls,
              m :: (processMsgs st' lid rest).appliedIds, (processMsgs st' lid rest).skippedIds,
              (processMsgs st' lid rest).err⟩ := rfl

theorem processMsgs_cons_get_error {st : Remote} {m : String} {e : HttpError}
    (lid : String) (rest : List String) (hg : getMsgApi st m = .error e) :
    processMsgs st lid (m :: rest) = ⟨st, [.getMsg m], [], [], true⟩ := by
  rw [processMsgs_cons, hg]

theorem processMsgs_cons_skip {st : Remote} {m lid : String} {existing : List String}
    (rest : List String) (hg : getMsgApi st m = .ok existing) (hmem : lid ∈ existing) :
    processMsgs st lid (m :: rest) =
      ⟨(processMsgs st lid rest).st, .getMsg m :: (processMsgs st lid rest).calls,
        (processMsgs st lid rest).appliedIds, m :: (processMsgs st lid rest).skippedIds,
        (processMsgs st lid rest).err⟩ := by
  rw [processMsgs_cons, hg]
  simp [hmem]

theorem processMsgs_cons_mod_error {st : Remote} {m lid : String} {existing : List String}
    {e : HttpError} (rest : List String) (hg : getMsgApi st m = .ok existing)
    (hmem : lid ∉ existing) (hm : modifyMsgApi st m [lid] [] = .error e) :
    processMsgs st lid (m :: rest) =
      ⟨st, [.getMsg m, .modifyMsg m [lid] []], [], [], true⟩ := by
  rw [processMsgs_cons, hg]
  simp [hmem, hm]

theorem processMsgs_cons_mod_ok {st st' : Remote} {m lid : String} {existing : List String}
    (rest : List String) (hg : getMsgApi st m = .ok existing)
    (hmem : lid ∉ existing) (hm : modifyMsgApi st m [lid] [] = .ok st') :
    processMsgs st lid (m :: rest) =
      ⟨(processMsgs st' lid rest).st,
        .getMsg m :: .modifyMsg m [lid] [] :: (processMsgs st' lid rest).calls,
        m :: (processMsgs st' lid rest).appliedIds, (processMsgs st' lid rest).skippedIds,
        (processMsgs st' lid rest).err⟩ := by
  rw [processMsgs_cons, hg]
  simp [hmem, hm]

theorem processRule_eq (st : Remote) (s l d : String) :
    processRule st s l d =
      match get_or_create_label st l with
      | (cs, .error _) => ⟨st, cs, [], [], true⟩
      | (cs, .ok (lid, st1)) =>
        if lid = "" then ⟨st1, cs, [], [], false⟩
        else
          match listMessagesApi st1 (queryFor s d) 0 with
          | .error _ => ⟨st1, cs ++ [.searchMsgs (queryFor s d)], [], [], true⟩
          | .ok (ms, _) =>
            if ms = [] then ⟨st1, cs ++ [.searchMsgs (queryFor s d)], [], [], false⟩
            else
              ⟨(processMsgs st1 lid ms).st,
                cs ++ .searchMsgs (queryFor s d) :: (processMsgs st1 lid ms).calls,
                (processMsgs st1 lid ms).appliedIds, (processMsgs st1 lid ms).skippedIds,
                (processMsgs st1 lid ms).err⟩ := rfl

theorem processRule_goc_error {st : Remote} {l : String} {cs : List ApiCall} {e : HttpError}
    (s d : String) (h : get_or_create_label st l = (cs, .error e)) :
    processRule st s l d = ⟨st, cs, [], [], true⟩ := by
  rw [processRule_eq, h]

theorem processRule_lid_empty {st st1 : Remote} {l : String} {cs : List ApiCall}
    (s d : String) (h : get_or_create_label st l = (cs, .ok ("", st1))) :
    processRule st s l d = ⟨st1, cs, [], [], false⟩ := by
  rw [processRule_eq, h]
  simp

theorem processRule_search_error {st st1 : Remote} {s l d lid : String} {cs : List ApiCall}
    {e : HttpError} (h : get_or_create_label st l = (cs, .ok (lid, st1)))
    (hlid : lid ≠ "") (hs : listMessagesApi st1 (queryFor s d) 0 = .error e) :
    processRule st s l d = ⟨st1, cs ++ [.searchMsgs (queryFor s d)], [], [], true⟩ := by
  rw [processRule_eq, h]
  simp [hlid, hs]

theorem processRule_no_msgs {st st1 : Remote} {s l d lid : String} {cs : List ApiCall}
    {tok : Option Nat} (h : get_or_create_label st l = (cs, .ok (lid, st1)))
    (hlid : lid ≠ "") (hs : listMessagesApi st1 (queryFor s d) 0 = .ok ([], tok)) :
    processRule st s l d = ⟨st1, cs ++ [.searchMsgs (queryFor s d)], [], [], false⟩ := by
  rw [processRule_eq, h]
  simp [hlid, hs]

theorem processRule_msgs {st st1 : Remote} {s l d lid : String} {cs : List ApiCall}
    {ms : List String} {tok : Option Nat}
    (h : get_or_create_label st l = (cs, .ok (lid, st1)))
    (hlid : lid ≠ "") (hs : listMessagesApi st1 (queryFor s d) 0 = .ok (ms, tok))
    (hms : ms ≠ []) :
    processRule st s l d =
      ⟨(processMsgs st1 lid ms).st,
        cs ++ .searchMsgs (queryFor s d) :: (processMsgs st1 lid ms).calls,
        (processMsgs st1 lid ms).appliedIds, (processMsgs st1 lid ms).skippedIds,
        (processMsgs st1 lid ms).err⟩ := by
  rw [processRule_eq, h]
  simp [hlid, hs, hms]

theorem listMessagesApi_zero (st : Remote) (q : String) (h : q ∉ st.failSearch) :
    listMessagesApi st q 0 =
      .ok (firstPage st q, if 0 + 1 < (pagesFor st q).length then some (0 + 1) else none) := by
  unfold listMessagesApi firstPage
  rw [if_neg h]
  cases pagesFor st q <;> simp

theorem labelEmailsGo_nil (st : Remote) (d : String) :
    labelEmailsGo st d [] = ⟨st, [], false⟩ := rfl

theorem labelEmailsGo_cons (st : Remote) (d s l : String) (rest : List (String × String)) :
    labelEmailsGo st d ((s, l) :: rest) =
      if (processRule st s l d).err then
        ⟨(processRule st s l d).st, (processRule st s l d).calls, true⟩
      else
        ⟨(labelEmailsGo (processRule st s l d).st d rest).st,
          (processRule st s l d).calls ++
            (labelEmailsGo (processRule st s l d).st d rest).calls,
          (labelEmailsGo (processRule st s l d).st d rest).aborted⟩ := rfl

theorem labelEmailsGo_cons_err {st : Remote} {s l d : String}
    (rest : List (String × String)) (h : (processRule st s l d).err = true) :
    labelEmailsGo st d ((s, l) :: rest) =
      ⟨(processRule st s l d).st, (processRule st s l d).calls, true⟩ := by
  rw [labelEmailsGo_cons]
  simp [h]

theorem labelEmailsGo_cons_ok {st : Remote} {s l d : String}
    (rest : List (String × String)) (h : (processRule st s l d).err = false) :
    labelEmailsGo st d ((s, l) :: rest) =
      ⟨(labelEmailsGo (processRule st s l d).st d rest).st,
        (processRule st s l d).calls ++ (labelEmailsGo (processRule st s l d).st d rest).calls,
        (labelEmailsGo (processRule st s l d).st d rest).aborted⟩ := by
  rw [labelEmailsGo_cons]
  simp [h]

/-! ### Preservation lemmas -/

theorem getMsgApi_ok {st : Remote} {m : String} {ls : List String}
    (h : getMsgApi st m = .ok ls) :
    msgLabels st m = some ls ∧ m ∉ st.failGet := by
  unfold getMsgApi at h
  by_cases h1 : m ∈ st.failGet
  · simp [h1] at h
  · rw [if_neg h1] at h
    cases hml : msgLabels st m with
    | none => rw [hml] at h; simp at h
    | some ls0 =>
      rw [hml] at h
      simp only [Except.ok.injEq] at h
      exact ⟨by rw [h], h1⟩

theorem StExt.append_labels (st : Remote) (e : List Label) (k : Nat) :
    StExt st { st with labels := st.labels ++ e, nextLabelNum := k } := by
  refine ⟨rfl, rfl, rfl, rfl, rfl, rfl, ⟨e, rfl⟩, ?_, ?_⟩
  · intro x hx
    simpa [msgLabels] using hx
  · intro x l hl
    simpa [HasLbl, msgLabels] using hl

theorem get_or_create_ext {st st1 : Remote} {n lid : String} {cs : List ApiCall}
    (h : get_or_create_label st n = (cs, .ok (lid, st1))) : StExt st st1 := by
  obtain ⟨-, -, -, hcase⟩ := get_or_create_label_ok st n cs lid st1 h
  rcases hcase with heq | ⟨-, heq⟩
  · rw [heq]
    exact StExt.refl st
  · rw [heq]
    exact StExt.append_labels st [⟨lid, n⟩] (st.nextLabelNum + 1)

theorem processRule_ext (st : Remote) (s l d : String) :
    StExt st (processRule st s l d).st := by
  rw [processRule_eq]
  split
  next => exact StExt.refl st
  next cs lid st1 heq =>
    have hext1 : StExt st st1 := get_or_create_ext heq
    split
    · exact hext1
    · split
      next => exact hext1
      next ms tok heq2 =>
        split
        · exact hext1
        · exact StExt.trans hext1 (processMsgs_state st1 lid ms).1

theorem processRule_labels (st : Remote) (s l d : String) :
    (processRule st s l d).st.labels = st.labels ∨
      (resolveName st.labels l = none ∧
        ∃ i, (processRule st s l d).st.labels = st.labels ++ [⟨i, l⟩]) := by
  rw [processRule_eq]
  split
  next => exact Or.inl rfl
  next cs lid st1 heq =>
    obtain ⟨-, -, -, hcase⟩ := get_or_create_label_ok st l cs lid st1 heq
    have hst1 : st1.labels = st.labels ∨
        (resolveName st.labels l = none ∧ st1.labels = st.labels ++ [⟨lid, l⟩]) := by
      rcases hcase with rfl | ⟨hn, rfl⟩
      · exact Or.inl rfl
      · exact Or.inr ⟨hn, rfl⟩
    have key : ∀ stR : Remote, stR.labels = st1.labels →
        (stR.labels = st.labels ∨
          (resolveName st.labels l = none ∧ ∃ i, stR.labels = st.labels ++ [⟨i, l⟩])) := by
      intro stR hR
      rcases hst1 with h1 | ⟨hn, h1⟩
      · exact Or.inl (hR.trans h1)
      · exact Or.inr ⟨hn, lid, hR.trans h1⟩
    split
    · exact key st1 rfl
    · split
      next => exact key st1 rfl
      next ms tok heq2 =>
        split
        · exact key st1 rfl
        · exact key (processMsgs st1 lid ms).st (processMsgs_state st1 lid ms).2

theorem noFaults_ext {st st' : Remote} (h : StExt st st') (hn : noFaults st) :
    noFaults st' := by
  obtain ⟨h1, h2, h3, h4, h5⟩ := hn
  exact ⟨h.failList.trans h1, h.failCreate.trans h2, h.failSearch.trans h3,
    h.failGet.trans h4, h.failModify.trans h5⟩

theorem firstPage_congr {st st' : Remote} (h : st'.pages = st.pages) (q : String) :
    firstPage st' q = firstPage st q := by
  unfold firstPage pagesFor
  rw [h]

theorem ruleSettled_ext {st st' : Remote} {d : String} {r : String × String}
    (hext : StExt st st')
    (hlab : resolveName st'.labels r.2 = resolveName st.labels r.2)
    (h : ruleSettled st d r) : ruleSettled st' d r := by
  obtain ⟨lid, hres, hrest⟩ := h
  refine ⟨lid, by rw [hlab]; exact hres, ?_⟩
  rcases hrest with hempty | hall
  · exact Or.inl hempty
  · refine Or.inr fun m hm => ?_
    rw [firstPage_congr hext.pages] at hm
    exact hext.mono m lid (hall m hm)

theorem ruleSettled_processRule {st : Remote} {d : String} {r : String × String}
    (s' l' d' : String) (h : ruleSettled st d r) :
    ruleSettled (processRule st s' l' d').st d r := by
  refine ruleSettled_ext (processRule_ext st s' l' d') ?_ h
  rcases processRule_labels st s' l' d' with heq | ⟨hnone, i, heq⟩
  · rw [heq]
  · rw [heq, resolveName_append_single]
    by_cases hl : l' = r.2
    · subst hl
      obtain ⟨lid, hres, -⟩ := h
      rw [hres] at hnone
      cases hnone
    · rw [if_neg hl]

/-! ### Settledness: a completed rule leaves every searched message labeled -/

theorem processMsgs_all_labeled {st : Remote} {lid : String} {ms : List String}
    (h : (processMsgs st lid ms).err = false) :
    ∀ m ∈ ms, HasLbl (processMsgs st lid ms).st m lid := by
  induction ms generalizing st with
  | nil => simp
  | cons m rest ih =>
    cases hg : getMsgApi st m with
    | error e =>
      rw [processMsgs_cons_get_error lid rest hg] at h
      simp at h
    | ok existing =>
      by_cases hmem : lid ∈ existing
      · rw [processMsgs_cons_skip rest hg hmem] at h ⊢
        simp only at h ⊢
        intro x hx
        rcases List.mem_cons.mp hx with hxm | hx'
        · subst hxm
          have hbase : HasLbl st x lid := ⟨existing, (getMsgApi_ok hg).1, hmem⟩
          exact (processMsgs_state st lid rest).1.mono x lid hbase
        · exact ih h x hx'
      · cases hm : modifyMsgApi st m [lid] [] with
        | error e =>
          rw [processMsgs_cons_mod_error rest hg hmem hm] at h
          simp at h
        | ok st' =>
          rw [processMsgs_cons_mod_ok rest hg hmem hm] at h ⊢
          simp only at h ⊢
          intro x hx
          rcases List.mem_cons.mp hx with hxm | hx'
          · obtain ⟨hst', -, -⟩ := modifyMsgApi_ok st st' m [lid] [] hm
            have hbase : HasLbl st' m lid := by
              refine ⟨applyModify existing [lid] [], ?_, mem_applyModify_self existing lid⟩
              rw [hst', msgLabels_applyAdd, (getMsgApi_ok hg).1]
              simp
            exact hxm ▸ (processMsgs_state st' lid rest).1.mono m lid hbase
          · exact ih h x hx'

theorem listMessagesApi_zero_ok {st1 : Remote} {q : String} {ms : List String}
    {tok : Option Nat} (h : listMessagesApi st1 q 0 = .ok (ms, tok)) :
    firstPage st1 q = ms ∧ q ∉ st1.failSearch := by
  unfold listMessagesApi at h
  by_cases hq : q ∈ st1.failSearch
  · simp [hq] at h
  · rw [if_neg hq] at h
    simp only [Except.ok.injEq, Prod.mk.injEq] at h
    refine ⟨?_, hq⟩
    unfold firstPage
    cases hp : pagesFor st1 q with
    | nil =>
      rw [hp] at h
      simpa using h.1
    | cons p ps =>
      rw [hp] at h
      simpa using h.1

theorem processRule_settles {st : Remote} {s l d : String}
    (h : (processRule st s l d).err = false) :
    ruleSettled (processRule st s l d).st d (s, l) := by
  rcases hgoc : get_or_create_label st l with ⟨cs, e | ⟨lid, st1⟩⟩
  · rw [processRule_goc_error s d hgoc] at h
    simp at h
  · obtain ⟨-, hres1, -, -⟩ := get_or_create_label_ok st l cs lid st1 hgoc
    by_cases hlid : lid = ""
    · subst hlid
      rw [processRule_lid_empty s d hgoc]
      exact ⟨"", hres1, Or.inl rfl⟩
    · rcases hls : listMessagesApi st1 (queryFor s d) 0 with e2 | ⟨ms, tok⟩
      · rw [processRule_search_error hgoc hlid hls] at h
        simp at h
      · have hpage : firstPage st1 (queryFor s d) = ms := (listMessagesApi_zero_ok hls).1
        by_cases hms : ms = []
        · subst hms
          rw [processRule_no_msgs hgoc hlid hls]
          refine ⟨lid, hres1, Or.inr fun m hm => ?_⟩
          rw [show (⟨st1, cs ++ [.searchMsgs (queryFor s d)], [], [], false⟩ : RuleOut).st = st1
              from rfl, hpage] at hm
          cases hm
        · rw [processRule_msgs hgoc hlid hls hms] at h ⊢
          simp only at h ⊢
          refine ⟨lid, ?_, Or.inr fun m hm => ?_⟩
          · rw [(processMsgs_state st1 lid ms).2]
            exact hres1
          · rw [firstPage_congr ((processMsgs_state st1 lid ms).1.pages), hpage] at hm
            exact processMsgs_all_labeled h m hm

/-! ### A settled rule re-runs without issuing any mutation -/

theorem processMsgs_settled {st : Remote} {lid : String} {ms : List String}
    (hfg : st.failGet = []) (hall : ∀ m ∈ ms, HasLbl st m lid) :
    processMsgs st lid ms = ⟨st, ms.map ApiCall.getMsg, [], ms, false⟩ := by
  induction ms with
  | nil => simp [processMsgs_nil]
  | cons m rest ih =>
    obtain ⟨ls, hls, hmem⟩ := hall m (List.mem_cons_self m rest)
    have hgo : getMsgApi st m = .ok ls := by
      unfold getMsgApi
      rw [if_neg (by simp [hfg]), hls]
    rw [processMsgs_cons_skip rest hgo hmem,
      ih (fun x hx => hall x (List.mem_cons_of_mem m hx))]
    simp

theorem processRule_settled {st : Remote} {d s l : String}
    (hnf : noFaults st) (h : ruleSettled st d (s, l)) :
    (processRule st s l d).st = st ∧ (processRule st s l d).err = false ∧
      ∀ c ∈ (processRule st s l d).calls, c.isModify = false := by
  obtain ⟨hfl, hfc, hfs, hfg, hfm⟩ := hnf
  obtain ⟨lid, hres, hrest⟩ := h
  have hgoc : get_or_create_label st l = ([.listLabels], .ok (lid, st)) := by
    unfold get_or_create_label listLabelsApi
    rw [hfl]
    simp [hres]
  by_cases hlid : lid = ""
  · subst hlid
    rw [processRule_lid_empty s d hgoc]
    refine ⟨rfl, rfl, fun c hc => ?_⟩
    rcases List.mem_singleton.mp hc with rfl
    rfl
  · have hall : ∀ m ∈ firstPage st (queryFor s d), HasLbl st m lid := by
      rcases hrest with hempty | hall
      · exact absurd hempty hlid
      · exact hall
    have hsr := listMessagesApi_zero st (queryFor s d) (by simp [hfs])
    by_cases hpg : firstPage st (queryFor s d) = []
    · rw [hpg] at hsr
      rw [processRule_no_msgs hgoc hlid hsr]
      refine ⟨rfl, rfl, fun c hc => ?_⟩
      rcases List.mem_append.mp hc with hc1 | hc1 <;>
        rcases List.mem_singleton.mp hc1 with rfl <;> rfl
    · rw [processRule_msgs hgoc hlid hsr hpg, processMsgs_settled hfg hall]
      refine ⟨rfl, rfl, fun c hc => ?_⟩
      simp only at hc
      rcases List.mem_append.mp hc with hc1 | hc1
      · rcases List.mem_singleton.mp hc1 with rfl
        rfl
      · rcases List.mem_cons.mp hc1 with rfl | hc2
        · rfl
        · obtain ⟨x, -, rfl⟩ := List.mem_map.mp hc2
          rfl

/-! ### The rule loop -/

theorem labelEmailsGo_ext (st : Remote) (d : String) (rules : List (String × String)) :
    StExt st (labelEmailsGo st d rules).st := by
  induction rules generalizing st with
  | nil => exact StExt.refl st
  | cons hd rest ih =>
    rcases hd with ⟨s, l⟩
    cases herr : (processRule st s l d).err with
    | true =>
      rw [labelEmailsGo_cons_err rest herr]
      exact processRule_ext st s l d
    | false =>
      rw [labelEmailsGo_cons_ok rest herr]
      exact StExt.trans (processRule_ext st s l d) (ih _)

theorem labelEmailsGo_settled_pres {st : Remote} {d : String} {r : String × String}
    (rules : List (String × String)) (h : ruleSettled st d r) :
    ruleSettled (labelEmailsGo st d rules).st d r := by
  induction rules generalizing st with
  | nil => exact h
  | cons hd rest ih =>
    rcases hd with ⟨s, l⟩
    cases herr : (processRule st s l d).err with
    | true =>
      rw [labelEmailsGo_cons_err rest herr]
      exact ruleSettled_processRule s l d h
    | false =>
      rw [labelEmailsGo_cons_ok rest herr]
      exact ih (ruleSettled_processRule s l d h)

theorem labelEmailsGo_establishes {st : Remote} {d : String}
    {rules : List (String × String)} (h : (labelEmailsGo st d rules).aborted = false) :
    allSettled (labelEmailsGo st d rules).st d rules := by
  induction rules generalizing st with
  | nil => exact fun r hr => absurd hr (List.not_mem_nil r)
  | cons hd rest ih =>
    rcases hd with ⟨s, l⟩
    cases herr : (processRule st s l d).err with
    | true =>
      rw [labelEmailsGo_cons_err rest herr] at h
      simp at h
    | false =>
      rw [labelEmailsGo_cons_ok rest herr] at h ⊢
      simp only at h ⊢
      intro r hr
      rcases List.mem_cons.mp hr with hres | hr'
      · exact hres ▸ labelEmailsGo_settled_pres rest (processRule_settles herr)
      · exact ih h r hr'

theorem labelEmailsGo_settled_silent {st : Remote} {d : String}
    {rules : List (String × String)} (hnf : noFaults st)
    (hall : allSettled st d rules) :
    (labelEmailsGo st d rules).st = st ∧ (labelEmailsGo st d rules).aborted = false ∧
      ∀ c ∈ (labelEmailsGo st d rules).calls, c.isModify = false := by
  induction rules with
  | nil => exact ⟨rfl, rfl, fun c hc => absurd hc (List.not_mem_nil c)⟩
  | cons hd rest ih =>
    rcases hd with ⟨s, l⟩
    obtain ⟨hst, herr, hmod⟩ :=
      processRule_settled hnf (hall (s, l) (List.mem_cons_self _ _))
    rw [labelEmailsGo_cons_ok rest herr]
    simp only
    rw [hst]
    obtain ⟨ih1, ih2, ih3⟩ := ih (fun r hr => hall r (List.mem_cons_of_mem _ hr))
    refine ⟨ih1, ih2, fun c hc => ?_⟩
    rcases List.mem_append.mp hc with hc1 | hc2
    · exact hmod c hc1
    · exact ih3 c hc2

/-! ### Per-message call-shape lemmas -/

theorem get_or_create_calls (st : Remote) (l : String) :
    (get_or_create_label st l).1 = [.listLabels] ∨
      (get_or_create_label st l).1 = [.listLabels, .createLabel l] := by
  unfold get_or_create_label
  split
  · exact Or.inl rfl
  · split
    · exact Or.inl rfl
    · split
      · exact Or.inr rfl
      · exact Or.inr rfl

theorem processMsgs_calls_perMsg (st : Remote) (lid : String) (ms : List String) :
    ∀ c ∈ (processMsgs st lid ms).calls, c.isPerMsg = true := by
  induction ms generalizing st with
  | nil => simp [processMsgs_nil]
  | cons m rest ih =>
    cases hg : getMsgApi st m with
    | error e =>
      rw [processMsgs_cons_get_error lid rest hg]
      intro c hc
      rcases List.mem_singleton.mp hc with rfl
      rfl
    | ok existing =>
      by_cases hmem : lid ∈ existing
      · rw [processMsgs_cons_skip rest hg hmem]
        intro c hc
        simp only at hc
        rcases List.mem_cons.mp hc with rfl | hc'
        · rfl
        · exact ih st c hc'
      · cases hm : modifyMsgApi st m [lid] [] with
        | error e =>
          rw [processMsgs_cons_mod_error rest hg hmem hm]
          intro c hc
          rcases List.mem_cons.mp hc with rfl | hc'
          · rfl
          · rcases List.mem_singleton.mp hc' with rfl
            rfl
        | ok st' =>
          rw [processMsgs_cons_mod_ok rest hg hmem hm]
          intro c hc
          simp only at hc
          rcases List.mem_cons.mp hc with rfl | hc'
          · rfl
          · rcases List.mem_cons.mp hc' with rfl | hc''
            · rfl
            · exact ih st' c hc''

theorem processMsgs_calls_msgId (st : Remote) (lid : String) (ms : List String) :
    ∀ c ∈ (processMsgs st lid ms).calls, ∀ m, c.msgId = some m → m ∈ ms := by
  induction ms generalizing st with
  | nil => simp [processMsgs_nil]
  | cons x rest ih =>
    have hx : ∀ m : String, (ApiCall.getMsg x).msgId = some m → m ∈ x :: rest := by
      intro m hm
      simp only [ApiCall.msgId, Option.some.injEq] at hm
      exact hm ▸ List.mem_cons_self x rest
    have hx' : ∀ m : String, (ApiCall.modifyMsg x [lid] []).msgId = some m → m ∈ x :: rest := by
      intro m hm
      simp only [ApiCall.msgId, Option.some.injEq] at hm
      exact hm ▸ List.mem_cons_self x rest
    cases hg : getMsgApi st x with
    | error e =>
      rw [processMsgs_cons_get_error lid rest hg]
      intro c hc
      rcases List.mem_singleton.mp hc with rfl
      exact hx
    | ok existing =>
      by_cases hmem : lid ∈ existing
      · rw [processMsgs_cons_skip rest hg hmem]
        intro c hc
        simp only at hc
        rcases List.mem_cons.mp hc with rfl | hc'
        · exact hx
        · exact fun m hm => List.mem_cons_of_mem x (ih st c hc' m hm)
      · cases hm : modifyMsgApi st x [lid] [] with
        | error e =>
          rw [processMsgs_cons_mod_error rest hg hmem hm]
          intro c hc
          rcases List.mem_cons.mp hc with rfl | hc'
          · exact hx
          · rcases List.mem_singleton.mp hc' with rfl
            exact hx'
        | ok st' =>
          rw [processMsgs_cons_mod_ok rest hg hmem hm]
          intro c hc
          simp only at hc
          rcases List.mem_cons.mp hc with rfl | hc'
          · exact hx
          · rcases List.mem_cons.mp hc' with rfl | hc''
            · exact hx'
            · exact fun m hm => List.mem_cons_of_mem x (ih st' c hc'' m hm)

theorem processMsgs_modify_body (st : Remote) (lid : String) (ms : List String) :
    ∀ m adds rems, ApiCall.modifyMsg m adds rems ∈ (processMsgs st lid ms).calls →
      adds = [lid] ∧ rems = [] := by
  induction ms generalizing st with
  | nil => simp [processMsgs_nil]
  | cons x rest ih =>
    cases hg : getMsgApi st x with
    | error e =>
      rw [processMsgs_cons_get_error lid rest hg]
      intro m adds rems hc
      rcases List.mem_singleton.mp hc with h
      cases h
    | ok existing =>
      by_cases hmem : lid ∈ existing
      · rw [processMsgs_cons_skip rest hg hmem]
        intro m adds rems hc
        simp only at hc
        rcases List.mem_cons.mp hc with h | hc'
        · cases h
        · exact ih st m adds rems hc'
      · cases hm : modifyMsgApi st x [lid] [] with
        | error e =>
          rw [processMsgs_cons_mod_error rest hg hmem hm]
          intro m adds rems hc
          rcases List.mem_cons.mp hc with h | hc'
          · cases h
          · rcases List.mem_singleton.mp hc' with h
            injection h with h1 h2 h3
            exact ⟨h2, h3⟩
        | ok st' =>
          rw [processMsgs_cons_mod_ok rest hg hmem hm]
          intro m adds rems hc
          simp only at hc
          rcases List.mem_cons.mp hc with h | hc'
          · cases h
          · rcases List.mem_cons.mp hc' with h | hc''
            · injection h with h1 h2 h3
              exact ⟨h2, h3⟩
            · exact ih st' m adds rems hc''

theorem processMsgs_no_modify_labeled {st : Remote} {lid m : String}
    (ms : List String) (h : HasLbl st m lid) :
    ∀ adds rems, ApiCall.modifyMsg m adds rems ∉ (processMsgs st lid ms).calls := by
  induction ms generalizing st with
  | nil => simp [processMsgs_nil]
  | cons x rest ih =>
    have hxm : ∀ existing, getMsgApi st x = .ok existing → lid ∉ existing → x ≠ m := by
      intro existing hg hmem hxm
      subst hxm
      obtain ⟨ls, hls, hlmem⟩ := h
      rw [(getMsgApi_ok hg).1] at hls
      cases hls
      exact hmem hlmem
    cases hg : getMsgApi st x with
    | error e =>
      rw [processMsgs_cons_get_error lid rest hg]
      intro adds rems hc
      rcases List.mem_singleton.mp hc with hcc
      cases hcc
    | ok existing =>
      by_cases hmem : lid ∈ existing
      · rw [processMsgs_cons_skip rest hg hmem]
        intro adds rems hc
        simp only at hc
        rcases List.mem_cons.mp hc with hcc | hc'
        · cases hcc
        · exact ih h adds rems hc'
      · have hne : x ≠ m := hxm existing hg hmem
        cases hm : modifyMsgApi st x [lid] [] with
        | error e =>
          rw [processMsgs_cons_mod_error rest hg hmem hm]
          intro adds rems hc
          rcases List.mem_cons.mp hc with hcc | hc'
          · cases hcc
          · rcases List.mem_singleton.mp hc' with hcc
            injection hcc with h1 h2 h3
            exact hne h1.symm
        | ok st' =>
          rw [processMsgs_cons_mod_ok rest hg hmem hm]
          intro adds rems hc
          simp only at hc
          rcases List.mem_cons.mp hc with hcc | hc'
          · cases hcc
          · rcases List.mem_cons.mp hc' with hcc | hc''
            · injection hcc with h1 h2 h3
              exact hne h1.symm
            · obtain ⟨hst', -, -⟩ := modifyMsgApi_ok st st' x [lid] [] hm
              have hext : StExt st st' := hst' ▸ StExt.modify st x [lid]
              exact ih (hext.mono m lid h) adds rems hc''

theorem processMsgs_skipped_mem {st : Remote} {lid m : String} {ms : List String}
    (h : HasLbl st m lid) (herr : (processMsgs st lid ms).err = false)
    (hmem : m ∈ ms) : m ∈ (processMsgs st lid ms).skippedIds := by
  induction ms generalizing st with
  | nil => cases hmem
  | cons x rest ih =>
    cases hg : getMsgApi st x with
    | error e =>
      rw [processMsgs_cons_get_error lid rest hg] at herr
      simp at herr
    | ok existing =>
      by_cases hlm : lid ∈ existing
      · rw [processMsgs_cons_skip rest hg hlm] at herr ⊢
        simp only at herr ⊢
        rcases List.mem_cons.mp hmem with rfl | hmem'
        · exact List.mem_cons_self _ _
        · exact List.mem_cons_of_mem _ (ih h herr hmem')
      · have hne : x ≠ m := by
          intro hxm
          subst hxm
          obtain ⟨ls, hls, hlmem⟩ := h
          rw [(getMsgApi_ok hg).1] at hls
          cases hls
          exact hlm hlmem
        cases hm2 : modifyMsgApi st x [lid] [] with
        | error e =>
          rw [processMsgs_cons_mod_error rest hg hlm hm2] at herr
          simp at herr
        | ok st' =>
          rw [processMsgs_cons_mod_ok rest hg hlm hm2] at herr ⊢
          simp only at herr ⊢
          rcases List.mem_cons.mp hmem with hxm | hmem'
          · exact absurd hxm.symm hne
          · obtain ⟨hst', -, -⟩ := modifyMsgApi_ok st st' x [lid] [] hm2
            have hext : StExt st st' := hst' ▸ StExt.modify st x [lid]
            exact ih (hext.mono m lid h) herr hmem'

theorem goc_calls_shape {st : Remote} {l : String} {cs : List ApiCall}
    {res : Except HttpError (String × Remote)}
    (h : get_or_create_label st l = (cs, res)) :
    cs = [.listLabels] ∨ cs = [.listLabels, .createLabel l] := by
  have hcalls := get_or_create_calls st l
  rw [h] at hcalls
  exact hcalls

theorem cs_shape_flat {cs : List ApiCall} {l : String}
    (h : cs = [.listLabels] ∨ cs = [.listLabels, .createLabel l]) :
    ∀ c ∈ cs, c.isPerMsg = false ∧ c.isSearch = false ∧ c.isModify = false ∧
      c.msgId = none := by
  rcases h with rfl | rfl <;> intro c hc
  · rcases List.mem_singleton.mp hc with rfl
    exact ⟨rfl, rfl, rfl, rfl⟩
  · rcases List.mem_cons.mp hc with rfl | hc'
    · exact ⟨rfl, rfl, rfl, rfl⟩
    · rcases List.mem_singleton.mp hc' with rfl
      exact ⟨rfl, rfl, rfl, rfl⟩

theorem cs_shape_no_modify {cs : List ApiCall} {l : String}
    (h : cs = [.listLabels] ∨ cs = [.listLabels, .createLabel l])
    (m : String) (adds rems : List String) : ApiCall.modifyMsg m adds rems ∉ cs := by
  intro hc
  have := (cs_shape_flat h _ hc).2.2.1
  simp [ApiCall.isModify] at this

/-- C1: for every message whose fetched `labelIds` already contain the
resolved label id of the current rule, the rule loop issues no modify call
for that message, and (when the rule completes without error and the message
is on the searched page) logs it as skipped. -/
theorem c1_already_labeled_no_modify
    (st st1 : Remote) (s l d m lid : String) (cs : List ApiCall) (ls : List String)
    (hgoc : get_or_create_label st l = (cs, Except.ok (lid, st1)))
    (hlid : lid ≠ "")
    (hml : msgLabels st m = some ls) (hmem : lid ∈ ls) :
    (∀ adds rems, ApiCall.modifyMsg m adds rems ∉ (processRule st s l d).calls) ∧
      ((processRule st s l d).err = false → m ∈ firstPage st1 (queryFor s d) →
        m ∈ (processRule st s l d).skippedIds) := by
  have hshape := goc_calls_shape hgoc
  have hHas1 : HasLbl st1 m lid := by
    obtain ⟨-, -, -, hcase⟩ := get_or_create_label_ok st l cs lid st1 hgoc
    rcases hcase with heq | ⟨-, heq⟩
    · rw [heq]
      exact ⟨ls, hml, hmem⟩
    · rw [heq]
      exact ⟨ls, hml, hmem⟩
  rcases hls : listMessagesApi st1 (queryFor s d) 0 with e | ⟨ms, tok⟩
  · rw [processRule_search_error hgoc hlid hls]
    refine ⟨fun adds rems hc => ?_, fun herr => by cases herr⟩
    simp only at hc
    rcases List.mem_append.mp hc with hc1 | hc1
    · exact cs_shape_no_modify hshape m adds rems hc1
    · rcases List.mem_singleton.mp hc1 with hcc
      cases hcc
  · have hfp : firstPage st1 (queryFor s d) = ms := (listMessagesApi_zero_ok hls).1
    by_cases hms : ms = []
    · subst hms
      rw [processRule_no_msgs hgoc hlid hls]
      refine ⟨fun adds rems hc => ?_, fun _ hm => ?_⟩
      · simp only at hc
        rcases List.mem_append.mp hc with hc1 | hc1
        · exact cs_shape_no_modify hshape m adds rems hc1
        · rcases List.mem_singleton.mp hc1 with hcc
          cases hcc
      · rw [hfp] at hm
        cases hm
    · rw [processRule_msgs hgoc hlid hls hms]
      refine ⟨fun adds rems hc => ?_, fun herr hm => ?_⟩
      · simp only at hc
        rcases List.mem_append.mp hc with hc1 | hc1
        · exact cs_shape_no_modify hshape m adds rems hc1
        · rcases List.mem_cons.mp hc1 with hcc | hc2
          · cases hcc
          · exact processMsgs_no_modify_labeled ms hHas1 adds rems hc2
      · simp only at herr ⊢
        rw [hfp] at hm
        exact processMsgs_skipped_mem hHas1 herr hm

/-- C1 witness at a concrete input: `m2` from `a@x` already carries the
resolved id `L1`, so the rule issues no modify for it and logs it skipped. -/
theorem c1_already_labeled_no_modify_witness :
    get_or_create_label egRemote "Alerts" = ([.listLabels], Except.ok ("L1", egRemote)) ∧
      ("L1" : String) ≠ "" ∧ msgLabels egRemote "m2" = some ["L1"] ∧ ("L1" : String) ∈ ["L1"] ∧
      ((∀ adds rems,
          ApiCall.modifyMsg "m2" adds rems ∉ (processRule egRemote "a@x" "Alerts" "day 93").calls) ∧
        ((processRule egRemote "a@x" "Alerts" "day 93").err = false →
          "m2" ∈ firstPage egRemote (queryFor "a@x" "day 93") →
          "m2" ∈ (processRule egRemote "a@x" "Alerts" "day 93").skippedIds)) :=
  ⟨by rfl, by decide, by rfl, by decide,
    c1_already_labeled_no_modify egRemote egRemote "a@x" "Alerts" "day 93" "m2" "L1"
      [.listLabels] ["L1"] (by rfl) (by decide) (by rfl) (by decide)⟩

/-- C5: every modify the rule loop issues carries the request body
`addLabelIds = [resolved id]`, `removeLabelIds = []` — it adds exactly the
one resolved label id and removes nothing. -/
theorem c5_modify_body_exact
    (st st1 : Remote) (s l d lid : String) (cs : List ApiCall)
    (hgoc : get_or_create_label st l = (cs, Except.ok (lid, st1))) :
    ∀ m adds rems, ApiCall.modifyMsg m adds rems ∈ (processRule st s l d).calls →
      adds = [lid] ∧ rems = [] := by
  have hshape := goc_calls_shape hgoc
  by_cases hlid : lid = ""
  · subst hlid
    rw [processRule_lid_empty s d hgoc]
    intro m adds rems hc
    exact absurd hc (cs_shape_no_modify hshape m adds rems)
  · rcases hls : listMessagesApi st1 (queryFor s d) 0 with e | ⟨ms, tok⟩
    · rw [processRule_search_error hgoc hlid hls]
      intro m adds rems hc
      simp only at hc
      rcases List.mem_append.mp hc with hc1 | hc1
      · exact absurd hc1 (cs_shape_no_modify hshape m adds rems)
      · rcases List.mem_singleton.mp hc1 with hcc
        cases hcc
    · by_cases hms : ms = []
      · subst hms
        rw [processRule_no_msgs hgoc hlid hls]
        intro m adds rems hc
        simp only at hc
        rcases List.mem_append.mp hc with hc1 | hc1
        · exact absurd hc1 (cs_shape_no_modify hshape m adds rems)
        · rcases List.mem_singleton.mp hc1 with hcc
          cases hcc
      · rw [processRule_msgs hgoc hlid hls hms]
        intro m adds rems hc
        simp only at hc
        rcases List.mem_append.mp hc with hc1 | hc1
        · exact absurd hc1 (cs_shape_no_modify hshape m adds rems)
        · rcases List.mem_cons.mp hc1 with hcc | hc2
          · cases hcc
          · exact processMsgs_modify_body st1 lid ms m adds rems hc2

/-- C5 witness at a concrete input: the one modify issued for `m1` carries
exactly `addLabelIds = [L1]` and `removeLabelIds = []`. -/
theorem c5_modify_body_exact_witness :
    get_or_create_label egRemote "Alerts" = ([.listLabels], Except.ok ("L1", egRemote)) ∧
      (∀ m adds rems,
        ApiCall.modifyMsg m adds rems ∈ (processRule egRemote "a@x" "Alerts" "day 93").calls →
          adds = ["L1"] ∧ rems = []) :=
  ⟨by rfl,
    c5_modify_body_exact egRemote egRemote "a@x" "Alerts" "day 93" "L1" [.listLabels]
      (by rfl)⟩

/-- C6: a rule whose search matches zero message ids ends with no error, no
applied or skipped messages, and no per-message (get/modify) call. -/
theorem c6_empty_search_outcome
    (st st1 : Remote) (s l d lid : String) (cs : List ApiCall)
    (hgoc : get_or_create_label st l = (cs, Except.ok (lid, st1)))
    (hq : queryFor s d ∉ st1.failSearch)
    (hmatch : allMatching st1 (queryFor s d) = []) :
    (processRule st s l d).err = false ∧
      (processRule st s l d).appliedIds = [] ∧
      (processRule st s l d).skippedIds = [] ∧
      ∀ c ∈ (processRule st s l d).calls, c.isPerMsg = false := by
  have hshape := goc_calls_shape hgoc
  have hfp : firstPage st1 (queryFor s d) = [] := by
    unfold allMatching at hmatch
    unfold firstPage
    cases hp : pagesFor st1 (queryFor s d) with
    | nil => rfl
    | cons p ps =>
      rw [hp] at hmatch
      simp only [List.flatten_cons, List.append_eq_nil] at hmatch
      exact hmatch.1
  by_cases hlid : lid = ""
  · subst hlid
    rw [processRule_lid_empty s d hgoc]
    exact ⟨rfl, rfl, rfl, fun c hc => (cs_shape_flat hshape c hc).1⟩
  · have hsr := listMessagesApi_zero st1 (queryFor s d) hq
    rw [hfp] at hsr
    rw [processRule_no_msgs hgoc hlid hsr]
    refine ⟨rfl, rfl, rfl, fun c hc => ?_⟩
    simp only at hc
    rcases List.mem_append.mp hc with hc1 | hc1
    · exact (cs_shape_flat hshape c hc1).1
    · rcases List.mem_singleton.mp hc1 with rfl
      rfl

/-- C6 witness at a concrete input: no message matches `b@x`, so the rule
ends cleanly with empty outcome lists and only list/search calls. -/
theorem c6_empty_search_outcome_witness :
    get_or_create_label egRemote "Alerts" = ([.listLabels], Except.ok ("L1", egRemote)) ∧
      queryFor "b@x" "day 93" ∉ egRemote.failSearch ∧
      allMatching egRemote (queryFor "b@x" "day 93") = [] ∧
      ((processRule egRemote "b@x" "Alerts" "day 93").err = false ∧
        (processRule egRemote "b@x" "Alerts" "day 93").appliedIds = [] ∧
        (processRule egRemote "b@x" "Alerts" "day 93").skippedIds = [] ∧
        ∀ c ∈ (processRule egRemote "b@x" "Alerts" "day 93").calls, c.isPerMsg = false) :=
  ⟨by rfl, by decide, by rfl,
    c6_empty_search_outcome egRemote egRemote "b@x" "Alerts" "day 93" "L1" [.listLabels]
      (by rfl) (by decide) (by rfl)⟩

/-! ### Counting list and search calls -/

theorem perMsg_not_list {c : ApiCall} (h : c.isPerMsg = true) :
    c.isListLabels = false := by
  cases c <;> simp_all [ApiCall.isPerMsg, ApiCall.isListLabels]

theorem perMsg_not_search {c : ApiCall} (h : c.isPerMsg = true) :
    c.isSearch = false := by
  cases c <;> simp_all [ApiCall.isPerMsg, ApiCall.isSearch]

theorem processMsgs_count_list (st : Remote) (lid : String) (ms : List String) :
    (processMsgs st lid ms).calls.countP ApiCall.isListLabels = 0 := by
  rw [List.countP_eq_zero]
  intro c hc
  simp [perMsg_not_list (processMsgs_calls_perMsg st lid ms c hc)]

theorem processMsgs_count_search (st : Remote) (lid : String) (ms : List String) :
    (processMsgs st lid ms).calls.countP ApiCall.isSearch = 0 := by
  rw [List.countP_eq_zero]
  intro c hc
  simp [perMsg_not_search (processMsgs_calls_perMsg st lid ms c hc)]

theorem cs_shape_count_list {cs : List ApiCall} {l : String}
    (h : cs = [.listLabels] ∨ cs = [.listLabels, .createLabel l]) :
    cs.countP ApiCall.isListLabels = 1 := by
  rcases h with rfl | rfl <;> rfl

theorem cs_shape_count_search {cs : List ApiCall} {l : String}
    (h : cs = [.listLabels] ∨ cs = [.listLabels, .createLabel l]) :
    cs.countP ApiCall.isSearch = 0 := by
  rcases h with rfl | rfl <;> rfl

theorem processRule_list_count (st : Remote) (s l d : String) :
    (processRule st s l d).calls.countP ApiCall.isListLabels = 1 := by
  rw [processRule_eq]
  split
  next cs e heq => exact cs_shape_count_list (goc_calls_shape heq)
  next cs lid st1 heq =>
    have h1 := cs_shape_count_list (goc_calls_shape heq)
    split
    · exact h1
    · split
      next e heq2 =>
        simp [List.countP_append, List.countP_cons, ApiCall.isListLabels, h1]
      next ms tok heq2 =>
        split
        next hms =>
          simp [List.countP_append, List.countP_cons, ApiCall.isListLabels, h1]
        next hms =>
          simp only [List.countP_append, List.countP_cons, h1, processMsgs_count_list]
          rfl

theorem labelEmailsGo_list_count {st : Remote} {d : String}
    {rules : List (String × String)} (h : (labelEmailsGo st d rules).aborted = false) :
    (labelEmailsGo st d rules).calls.countP ApiCall.isListLabels = rules.length := by
  induction rules generalizing st with
  | nil => rfl
  | cons hd rest ih =>
    rcases hd with ⟨s, l⟩
    cases herr : (processRule st s l d).err with
    | true =>
      rw [labelEmailsGo_cons_err rest herr] at h
      simp at h
    | false =>
      rw [labelEmailsGo_cons_ok rest herr] at h ⊢
      simp only at h ⊢
      rw [List.countP_append, processRule_list_count, ih h]
      simp [Nat.add_comm]

/-- C2: reconciliation is idempotent: after a run of `label_emails` that
completed without an HttpError, running the same rules again on the
resulting remote state (no remote-side changes in between, no faults)
issues zero modify (add-label) mutations, completes without error, and
leaves the remote state unchanged. -/
theorem c2_label_emails_idempotent (st : Remote) (rules : List (String × String))
    (days now : Int) (hnf : noFaults st)
    (h : (label_emails st rules days now).aborted = false) :
    (label_emails (label_emails st rules days now).st rules days now).st =
        (label_emails st rules days now).st ∧
      (label_emails (label_emails st rules days now).st rules days now).aborted = false ∧
      ∀ c ∈ (label_emails (label_emails st rules days now).st rules days now).calls,
        c.isModify = false := by
  unfold label_emails at h ⊢
  exact labelEmailsGo_settled_silent
    (noFaults_ext (labelEmailsGo_ext st _ rules) hnf)
    (labelEmailsGo_establishes h)

/-- C2 witness at a concrete input: the first run labels `m1`; the second
run issues no modify and changes nothing. -/
theorem c2_label_emails_idempotent_witness :
    noFaults egRemote ∧ (label_emails egRemote egRules 7 100).aborted = false ∧
      ((label_emails (label_emails egRemote egRules 7 100).st egRules 7 100).st =
          (label_emails egRemote egRules 7 100).st ∧
        (label_emails (label_emails egRemote egRules 7 100).st egRules 7 100).aborted = false ∧
        ∀ c ∈ (label_emails (label_emails egRemote egRules 7 100).st egRules 7 100).calls,
          c.isModify = false) :=
  ⟨⟨rfl, rfl, rfl, rfl, rfl⟩, by rfl,
    c2_label_emails_idempotent egRemote egRules 7 100 ⟨rfl, rfl, rfl, rfl, rfl⟩ (by rfl)⟩

/-- C3 (amended): an `HttpError` raised while processing one rule is caught
by the single handler around the whole rule loop: `label_emails` returns
normally with the abort flag set, and the result is independent of all
remaining rules — they are never processed. -/
theorem c3_rule_error_aborts_rest (st : Remote) (s l : String)
    (rest rest' : List (String × String)) (days now : Int)
    (herr : (processRule st s l (date_n_days_ago now days)).err = true) :
    (label_emails st ((s, l) :: rest) days now).aborted = true ∧
      label_emails st ((s, l) :: rest) days now =
        label_emails st ((s, l) :: rest') days now := by
  unfold label_emails
  rw [labelEmailsGo_cons_err rest herr, labelEmailsGo_cons_err rest' herr]
  exact ⟨rfl, rfl⟩

/-- C3 counterexample: rule 1's search fails while rule 2 has the unlabeled
message `m2` waiting; the run stops after rule 1's failed search and `m2` is
never labeled, although running rule 2 alone does label it.  This refutes
"processing continues with the remaining rules". -/
theorem c3_counterexample :
    (label_emails c3Remote [("a@x", "Alerts"), ("b@x", "News")] 7 100).aborted = true ∧
      (label_emails c3Remote [("a@x", "Alerts"), ("b@x", "News")] 7 100).calls =
        [.listLabels, .searchMsgs "from:a@x after:day 93"] ∧
      ApiCall.modifyMsg "m2" ["L2"] [] ∈
        (label_emails c3Remote [("b@x", "News")] 7 100).calls ∧
      ApiCall.modifyMsg "m2" ["L2"] [] ∉
        (label_emails c3Remote [("a@x", "Alerts"), ("b@x", "News")] 7 100).calls :=
  ⟨by rfl, by rfl, by decide, by decide⟩

/-- C3 witness: the amended theorem applied at the concrete aborting input. -/
theorem c3_rule_error_aborts_rest_witness :
    (processRule c3Remote "a@x" "Alerts" (date_n_days_ago 100 7)).err = true ∧
      ((label_emails c3Remote (("a@x", "Alerts") :: [("b@x", "News")]) 7 100).aborted = true ∧
        label_emails c3Remote (("a@x", "Alerts") :: [("b@x", "News")]) 7 100 =
          label_emails c3Remote (("a@x", "Alerts") :: []) 7 100) :=
  ⟨by rfl,
    c3_rule_error_aborts_rest c3Remote "a@x" "Alerts" [("b@x", "News")] [] 7 100 (by rfl)⟩

/-- C4 counterexample: a faultless two-rule run lists the remote labels
twice — once per rule — refuting "the remote label list is fetched at most
once per run". -/
theorem c4_counterexample :
    (label_emails eg2Remote eg2Rules 7 100).calls.countP ApiCall.isListLabels = 2 ∧
      ¬ (label_emails eg2Remote eg2Rules 7 100).calls.countP ApiCall.isListLabels ≤ 1 :=
  ⟨by rfl, by decide⟩

/-- C4 (amended): there is no per-run cache: label resolution re-lists the
remote labels on every rule, so a run that completes without error issues
exactly one labels-list call per rule. -/
theorem c4_list_once_per_rule (st : Remote) (rules : List (String × String))
    (days now : Int) (h : (label_emails st rules days now).aborted = false) :
    (label_emails st rules days now).calls.countP ApiCall.isListLabels = rules.length := by
  unfold label_emails at h ⊢
  exact labelEmailsGo_list_count h

/-- C4 witness: the amended theorem applied to the concrete two-rule run. -/
theorem c4_list_once_per_rule_witness :
    (label_emails eg2Remote eg2Rules 7 100).aborted = false ∧
      (label_emails eg2Remote eg2Rules 7 100).calls.countP ApiCall.isListLabels =
        eg2Rules.length :=
  ⟨by rfl, c4_list_once_per_rule eg2Remote eg2Rules 7 100 (by rfl)⟩

/-- C7 (amended): per rule the reconciler issues exactly one message-list
(search) request and every get/modify it performs references a message id on
the first result page only; the continuation token is never followed. -/
theorem c7_first_page_only (st st1 : Remote) (s l d lid : String) (cs : List ApiCall)
    (hgoc : get_or_create_label st l = (cs, Except.ok (lid, st1)))
    (hlid : lid ≠ "") :
    (processRule st s l d).calls.countP ApiCall.isSearch = 1 ∧
      ∀ c ∈ (processRule st s l d).calls, ∀ m, c.msgId = some m →
        m ∈ firstPage st1 (queryFor s d) := by
  have hshape := goc_calls_shape hgoc
  have hcs0 : cs.countP ApiCall.isSearch = 0 := cs_shape_count_search hshape
  have hcsid : ∀ c ∈ cs, ∀ m : String, c.msgId = some m → False := by
    intro c hc m hm
    rw [(cs_shape_flat hshape c hc).2.2.2] at hm
    cases hm
  rcases hls : listMessagesApi st1 (queryFor s d) 0 with e | ⟨ms, tok⟩
  · rw [processRule_search_error hgoc hlid hls]
    refine ⟨?_, fun c hc m hm => ?_⟩
    · simp [List.countP_append, List.countP_cons, ApiCall.isSearch, hcs0]
    · simp only at hc
      rcases List.mem_append.mp hc with hc1 | hc1
      · exact absurd hm (fun hm => hcsid c hc1 m hm)
      · rcases List.mem_singleton.mp hc1 with rfl
        cases hm
  · have hfp : firstPage st1 (queryFor s d) = ms := (listMessagesApi_zero_ok hls).1
    by_cases hms : ms = []
    · subst hms
      rw [processRule_no_msgs hgoc hlid hls]
      refine ⟨?_, fun c hc m hm => ?_⟩
      · simp [List.countP_append, List.countP_cons, ApiCall.isSearch, hcs0]
      · simp only at hc
        rcases List.mem_append.mp hc with hc1 | hc1
        · exact absurd hm (fun hm => hcsid c hc1 m hm)
        · rcases List.mem_singleton.mp hc1 with rfl
          cases hm
    · rw [processRule_msgs hgoc hlid hls hms]
      refine ⟨?_, fun c hc m hm => ?_⟩
      · simp only [List.countP_append, List.countP_cons, hcs0, processMsgs_count_search]
        rfl
      · simp only at hc
        rw [hfp]
        rcases List.mem_append.mp hc with hc1 | hc1
        · exact absurd hm (fun hm => hcsid c hc1 m hm)
        · rcases List.mem_cons.mp hc1 with rfl | hc2
          · cases hm
          · exact processMsgs_calls_msgId st1 lid ms c hc2 m hm

/-- C7 counterexample: the search result spans two pages and the first
response returns continuation token `1`, but the rule issues no further list
request: its whole trace stops at page one and never touches `m2`, refuting
"looping until no continuation token remains". -/
theorem c7_counterexample :
    listMessagesApi pgRemote "from:a@x after:day 93" 0 = .ok (["m1"], some 1) ∧
      allMatching pgRemote "from:a@x after:day 93" = ["m1", "m2"] ∧
      (processRule pgRemote "a@x" "Alerts" "day 93").calls =
        [.listLabels, .searchMsgs "from:a@x after:day 93", .getMsg "m1",
          .modifyMsg "m1" ["L1"] []] :=
  ⟨by rfl, by rfl, by rfl⟩

/-- C7 witness: the amended theorem applied at the two-page input. -/
theorem c7_first_page_only_witness :
    get_or_create_label pgRemote "Alerts" = ([.listLabels], Except.ok ("L1", pgRemote)) ∧
      ("L1" : String) ≠ "" ∧
      ((processRule pgRemote "a@x" "Alerts" "day 93").calls.countP ApiCall.isSearch = 1 ∧
        ∀ c ∈ (processRule pgRemote "a@x" "Alerts" "day 93").calls, ∀ m, c.msgId = some m →
          m ∈ firstPage pgRemote (queryFor "a@x" "day 93")) :=
  ⟨by rfl, by decide,
    c7_first_page_only pgRemote pgRemote "a@x" "Alerts" "day 93" "L1" [.listLabels]
      (by rfl) (by decide)⟩

/-- C8 (amended): a configured lookback value that fails integer parsing
(e.g. "abc") makes `main` return with a diagnostic before any remote call;
but a negative integer string such as "-3" parses successfully and the run
proceeds, so the original claim is too strong. -/
theorem c8_unparsable_days_no_remote_calls (cfg : Config) (st : Remote) (now : Int)
    (ds : String) (hd : cfg.daysToLookBack = some (some ds)) (hp : pyInt ds = none) :
    (main cfg st now).2 = [] ∧
      ((main cfg st now).1 = .warnedNoSenders ∨ (main cfg st now).1 = .invalidDays) := by
  unfold main
  rw [hd]
  by_cases hs : cfg.senderLabels.getD [] = []
  · simp [hs]
  · simp [hs, hp]

/-- C8 counterexample: with `Days = "-3"` the parse succeeds and `main`
performs remote calls (authentication, label listing, label creation and a
search), refuting "terminates with a diagnostic before any remote call" for
negative integer strings. -/
theorem c8_counterexample :
    pyInt ("-3") = some (-3) ∧
      (main ⟨some [("a@x", "L")], some (some "-3")⟩ emptyRemote 100).1 =
        .ran (label_emails emptyRemote [("a@x", "L")] (-3) 100) ∧
      (main ⟨some [("a@x", "L")], some (some "-3")⟩ emptyRemote 100).2 =
        [.authenticate, .listLabels, .createLabel "L",
          .searchMsgs "from:a@x after:day 103"] ∧
      (main ⟨some [("a@x", "L")], some (some "-3")⟩ emptyRemote 100).2 ≠ [] :=
  ⟨by rfl, by rfl, by rfl, by decide⟩

/-- C8 witness: the amended theorem applied at `Days = "abc"`. -/
theorem c8_unparsable_days_no_remote_calls_witness :
    (⟨some [("a@x", "L")], some (some "abc")⟩ : Config).daysToLookBack = some (some "abc") ∧
      pyInt ("abc") = none ∧
      ((main ⟨some [("a@x", "L")], some (some "abc")⟩ emptyRemote 100).2 = [] ∧
        ((main ⟨some [("a@x", "L")], some (some "abc")⟩ emptyRemote 100).1 = .warnedNoSenders ∨
          (main ⟨some [("a@x", "L")], some (some "abc")⟩ emptyRemote 100).1 = .invalidDays)) :=
  ⟨rfl, by rfl,
    c8_unparsable_days_no_remote_calls ⟨some [("a@x", "L")], some (some "abc")⟩
      emptyRemote 100 "abc" rfl (by rfl)⟩

/-- C9: a missing or empty `SENDER_LABELS` mapping makes `main` log a
warning and return cleanly, with zero remote calls (no authentication, no
listing, search or mutation). -/
theorem c9_no_senders_clean_exit (cfg : Config) (st : Remote) (now : Int)
    (h : cfg.senderLabels = none ∨ cfg.senderLabels = some []) :
    main cfg st now = (.warnedNoSenders, []) := by
  unfold main
  rcases h with h | h <;> rw [h] <;> rfl

/-- C9 witness: the empty-config run exits with the warning and no calls. -/
theorem c9_no_senders_clean_exit_witness :
    ((⟨none, none⟩ : Config).senderLabels = none ∨
        (⟨none, none⟩ : Config).senderLabels = some []) ∧
      main ⟨none, none⟩ emptyRemote 100 = (.warnedNoSenders, []) :=
  ⟨Or.inl rfl, c9_no_senders_clean_exit ⟨none, none⟩ emptyRemote 100 (Or.inl rfl)⟩

/-- C10: when the configuration omits `DAYS_TO_LOOK_BACK` (or its `Days`
field), `main` silently defaults the lookback to 30 days and proceeds. -/
theorem c10_missing_days_defaults_30 (cfg : Config) (st : Remote) (now : Int)
    (h : cfg.daysToLookBack = none ∨ cfg.daysToLookBack = some none)
    (hs : cfg.senderLabels.getD [] ≠ []) :
    main cfg st now =
      (.ran (label_emails st (cfg.senderLabels.getD []) 30 now),
        .authenticate :: (label_emails st (cfg.senderLabels.getD []) 30 now).calls) := by
  have hp30 : pyInt ("30") = some (30 : Int) := by decide
  unfold main
  rcases h with h | h <;> rw [h] <;> simp [hs, hp30]

/-- C10 witness: the defaulting theorem applied at a config without a
`DAYS_TO_LOOK_BACK` object. -/
theorem c10_missing_days_defaults_30_witness :
    ((⟨some [("a@x", "L")], none⟩ : Config).daysToLookBack = none ∨
        (⟨some [("a@x", "L")], none⟩ : Config).daysToLookBack = some none) ∧
      (⟨some [("a@x", "L")], none⟩ : Config).senderLabels.getD [] ≠ [] ∧
      main ⟨some [("a@x", "L")], none⟩ emptyRemote 100 =
        (.ran (label_emails emptyRemote
            ((⟨some [("a@x", "L")], none⟩ : Config).senderLabels.getD []) 30 100),
          .authenticate :: (label_emails emptyRemote
            ((⟨some [("a@x", "L")], none⟩ : Config).senderLabels.getD []) 30 100).calls) :=
  ⟨Or.inl rfl, by decide,
    c10_missing_days_defaults_30 ⟨some [("a@x", "L")], none⟩ emptyRemote 100
      (Or.inl rfl) (by decide)⟩

end GmailAutoLabeler
